import Mathlib

set_option maxHeartbeats 1000000

/-! Verification development for the boots DHCP server core.

The definitions below are shallow embeddings of src/cmd/boots/dhcp.go and
src/job/fetch.go: the in-memory lease table and its operations (freeLease,
addLease, releaseLease), the IPv4 address arithmetic (IPAdd, IPRange), the
option-82 circuit-id parser (getCircuitID), the packet handler control flow
(serveDHCP), the startup retry supervisor, and the single-flight fetch
layer. Go maps are embedded as association lists (contents plus an
iteration order), Go machine integers as Nat and Int with explicit
wraparound where the code can overflow, and fallible or panicking code as
Option-valued functions. -/

/-- An IPv4 address in 4-byte form, as produced by net.IP.To4. Octets are
stored most significant first. -/
structure IPv4 where
  o0 : Nat
  o1 : Nat
  o2 : Nat
  o3 : Nat
  deriving DecidableEq, Repr

/-- The 32-bit big-endian value of an address: the quantity computed inline
in IPAdd and by binary.BigEndian.Uint32 in IPRange. -/
def ipValue (ip : IPv4) : Nat :=
  ip.o0 <<< 24 + ip.o1 <<< 16 + ip.o2 <<< 8 + ip.o3

/-- IPAdd returns a copy of start + add (dhcp.go, IPAdd). The sum is taken
in a Go uint, which wraps at 2 ^ 64; the four result octets are then
extracted a byte at a time, which truncates the value to 32 bits. -/
def IPAdd (ip : IPv4) (add : Nat) : IPv4 :=
  let v := (ipValue ip + add) % 2 ^ 64
  ⟨(v >>> 24) % 256, (v >>> 16) % 256, (v >>> 8) % 256, v % 256⟩

/-- IPRange returns how many ips are in the range from start to stop,
inclusive (dhcp.go, IPRange): value(stop) - value(start) + 1 in Go int
arithmetic, which cannot overflow on 32-bit operand values. -/
def IPRange (start stop : IPv4) : Int :=
  (ipValue stop : Int) - (ipValue start : Int) + 1

/-- A lease records the assigned client NIC string (dhcp.go, type lease). -/
structure lease where
  nic : String
  deriving DecidableEq, Repr

/-- The DHCP server state (dhcp.go, type DHCPServer). The Go map from int
lease offsets to leases is embedded as an association list: its entries are
the map contents and its order stands for one map iteration order. -/
structure DHCPServer where
  start : IPv4
  subnet : IPv4
  gateway : IPv4
  leaseRange : Nat
  leases : List (Int × lease)
  deriving DecidableEq, Repr

/-- Go map read m[k]: the value stored at key k, none when the key is
absent. -/
def mapGet {α β : Type} [DecidableEq α] (m : List (α × β)) (k : α) : Option β :=
  match m with
  | [] => none
  | (k', v) :: rest => if k' = k then some v else mapGet rest k

/-- Go map assignment m[k] = v: replace the value at k in place if the key
is present, otherwise add the entry. -/
def mapSet {α β : Type} [DecidableEq α] (m : List (α × β)) (k : α) (v : β) :
    List (α × β) :=
  match m with
  | [] => [(k, v)]
  | (k', v') :: rest =>
    if k' = k then (k, v) :: rest else (k', v') :: mapSet rest k v

/-- First free offset in [lo, hi): the inner scan loop of freeLease, over
one of the two ranges {b, leaseRange} and {0, b}. -/
def findFree (m : List (Int × lease)) (lo hi : Nat) : Option Nat :=
  (List.range' lo (hi - lo)).find? (fun i => (mapGet m (i : Int)).isNone)

/-- freeLease (dhcp.go): pick a random start b in [0, leaseRange) — the
random draw is passed in as the argument b — scan [b, leaseRange) then
[0, b) for an offset absent from the lease map, and return the first one
found, or -1 if the pool is fully assigned. -/
def freeLease (s : DHCPServer) (b : Nat) : Int :=
  match findFree s.leases b s.leaseRange with
  | some i => (i : Int)
  | none =>
    match findFree s.leases 0 b with
    | some i => (i : Int)
    | none => -1

/-- addLease (dhcp.go): compute the offset of reqIP from the pool start via
IPRange; if it is in [0, leaseRange) and either free or already bound to
this same NIC, store the binding; otherwise do nothing. -/
def addLease (s : DHCPServer) (mac : String) (reqIP : IPv4) : DHCPServer :=
  if 0 ≤ IPRange s.start reqIP - 1 ∧
      IPRange s.start reqIP - 1 < (s.leaseRange : Int) then
    match mapGet s.leases (IPRange s.start reqIP - 1) with
    | none =>
      { s with leases := mapSet s.leases (IPRange s.start reqIP - 1) ⟨mac⟩ }
    | some l =>
      if l.nic = mac then
        { s with leases := mapSet s.leases (IPRange s.start reqIP - 1) ⟨mac⟩ }
      else s
  else s

/-- The loop body of releaseLease on the lease map entries taken in the
iteration order given by the list: delete the first entry whose NIC matches
and break; leave every other entry alone. -/
def releaseGo (m : List (Int × lease)) (mac : String) : List (Int × lease) :=
  match m with
  | [] => []
  | (k, v) :: rest =>
    if v.nic = mac then rest else (k, v) :: releaseGo rest mac

/-- releaseLease (dhcp.go): scan the lease map, remove the first entry
bound to this NIC, no-op when none matches. -/
def releaseLease (s : DHCPServer) (mac : String) : DHCPServer :=
  { s with leases := releaseGo s.leases mac }

/-- Go slice indexing l[i]: none models the index-out-of-range panic. -/
def goIndex (l : List Nat) (i : Nat) : Option Nat :=
  l.get? i

/-- Go slicing l[lo:hi]: none models the slice-bounds-out-of-range panic,
raised unless 0 ≤ lo ≤ hi ≤ len(l). -/
def goSlice (l : List Nat) (lo hi : Nat) : Option (List Nat) :=
  if lo ≤ hi ∧ hi ≤ l.length then some ((l.drop lo).take (hi - lo)) else none

/-- getCircuitID (dhcp.go): opt is the option-82 value bytes when the
option is present, none when absent. The result is none when the Go code
panics; otherwise some (circuitID, isErr) where isErr marks the
out-of-bounds error return. The code reads byte 1 as the declared length,
compares it with the actual byte count, and slices bytes [2:length]. -/
def getCircuitID (opt : Option (List Nat)) : Option (List Nat × Bool) :=
  match opt with
  | none => some ([], false)
  | some bytes =>
    match goIndex bytes 1 with
    | none => none
    | some len =>
      if len < bytes.length then
        match goSlice bytes 2 len with
        | none => none
        | some cid => some (cid, false)
      else
        some ([], true)

/-- The externally observable calls and effects performed while handling
one packet in serveDHCP, in program order. -/
inductive Event
  | discover
  | createHW
  | bindLease
  | getTemplate
  | createWorkflow
  | respond
  | releaseCall
  deriving DecidableEq, Repr

/-- serveDHCP (dhcp.go, dhcpHandler.serveDHCP): the control flow of one
packet, with the collaborators replaced by boolean outcomes. ignoreOUI and
ignoreGI are the ignore-list answers, isRelease classifies the message
type, discoveryOk is whether job.CreateFromDHCP found the hardware,
enableDefault is the ENABLE_DEFAULT_WORKFLOWS flag, b is the random draw
used by freeLease, and createHWOk, templateOk, workflowOk are the outcomes
of job.CreateHWFromDHCP, job.GetTemplate and job.CreateWorkflow. Returns
the trace of calls performed and the resulting server state. -/
def serveDHCP (s : DHCPServer) (mac : String)
    (ignoreOUI isRelease ignoreGI discoveryOk enableDefault : Bool)
    (b : Nat) (createHWOk templateOk workflowOk : Bool) :
    List Event × DHCPServer :=
  if ignoreOUI then ([], s)
  else if isRelease then ([.releaseCall], releaseLease s mac)
  else if ignoreGI then ([], s)
  else if discoveryOk then ([.discover, .respond], s)
  else if !enableDefault then ([.discover], s)
  else
    let free := freeLease s b
    if free = -1 then ([.discover], s)
    else
      let ipaddr := IPAdd s.start free.toNat
      if !createHWOk then ([.discover, .createHW], s)
      else
        let s' := addLease s mac ipaddr
        if !templateOk then
          ([.discover, .createHW, .bindLease, .getTemplate], s')
        else if !workflowOk then
          ([.discover, .createHW, .bindLease, .getTemplate, .createWorkflow], s')
        else
          ([.discover, .createHW, .bindLease, .getTemplate, .createWorkflow,
            .respond], s')

/-- Modelled from the spec: the retry.Do loop of ServeDHCP (dhcp.go line
84) comes from the external retry-go library, which is not under src/.
Following the spec section on the startup supervisor, the supervisor runs
the listen-and-serve operation up to a configured attempt budget; op i
tells whether attempt i (0-based) succeeds. Returns the index of the first
successful attempt within the budget, starting from attempt i. -/
def retryFrom (op : Nat → Bool) (i : Nat) : Nat → Option Nat
  | 0 => none
  | fuel + 1 => if op i then some i else retryFrom op (i + 1) fuel

/-- Modelled from the spec: bounded retry starting at attempt 0. -/
def retryDo (op : Nat → Bool) (budget : Nat) : Option Nat :=
  retryFrom op 0 budget

/-- Modelled from the spec: how many attempts the supervisor performs,
starting from attempt i with the given remaining budget. -/
def retryAttemptsFrom (op : Nat → Bool) (i : Nat) : Nat → Nat
  | 0 => 0
  | fuel + 1 => if op i then 1 else 1 + retryAttemptsFrom op (i + 1) fuel

/-- Modelled from the spec: total attempts performed by the supervisor. -/
def retryAttempts (op : Nat → Bool) (budget : Nat) : Nat :=
  retryAttemptsFrom op 0 budget

/-- ServeDHCP (dhcp.go): the supervisor escalates to a fatal process
termination exactly when the bounded retry exhausts its budget without a
successful attempt. -/
def serveDHCPFatal (op : Nat → Bool) (budget : Nat) : Bool :=
  (retryDo op budget).isNone

/-- The outcome a single-flight caller observes: the backend value or the
backend error, as shared by every caller of one in-flight call. -/
inductive Outcome
  | ok (v : Nat)
  | err (e : Nat)
  deriving DecidableEq, Repr

/-- The local state of one caller of the single-flight fetch layer for a
fixed key: not yet called, joined to the in-flight generation g, or
returned carrying generation g and its outcome. -/
inductive CallerState
  | idle
  | joined (g : Nat)
  | got (g : Nat) (out : Outcome)
  deriving DecidableEq, Repr

/-- The generation a caller is or was attached to, if any. -/
def CallerState.genOf : CallerState → Option Nat
  | .idle => none
  | .joined g => some g
  | .got g _ => some g

/-- Modelled from the spec: the singleflight.Group used by
discoverHardwareFromDHCP, createHardwareFromDHCP and
discoverHardwareFromIP (src/job/fetch.go) lives in the external
groupcache library, which is not under src/. Following the spec section on
the dedup fetch layer, the state for one key holds the generation
currently in flight (none when the in-flight record is cleared), a fresh
generation counter, the log of generations for which the underlying
operation was invoked, the completed generations with their outcomes, and
the caller states. -/
structure SFState where
  inflight : Option Nat
  nextGen : Nat
  invoked : List Nat
  completed : List (Nat × Outcome)
  callers : List CallerState
  deriving DecidableEq, Repr

/-- Modelled from the spec: the interleaved steps of the dedup fetch layer
for one key. start is a call finding no in-flight record: it records a new
generation, invokes the underlying operation once, and joins the caller to
it. join is a call finding the in-flight record: it joins that generation
without a new invocation. complete finishes the in-flight call, publishes
its outcome and clears the in-flight record. receive hands a completed
outcome to a caller joined to that generation. -/
inductive SFStep : SFState → SFState → Prop
  | start (s : SFState) (i : Nat)
      (hc : s.callers.get? i = some .idle)
      (hin : s.inflight = none) :
      SFStep s
        { inflight := some s.nextGen
          nextGen := s.nextGen + 1
          invoked := s.invoked ++ [s.nextGen]
          completed := s.completed
          callers := s.callers.set i (.joined s.nextGen) }
  | join (s : SFState) (i g : Nat)
      (hc : s.callers.get? i = some .idle)
      (hin : s.inflight = some g) :
      SFStep s { s with callers := s.callers.set i (.joined g) }
  | complete (s : SFState) (g : Nat) (o : Outcome)
      (hin : s.inflight = some g) :
      SFStep s { s with inflight := none, completed := s.completed ++ [(g, o)] }
  | receive (s : SFState) (i g : Nat) (o : Outcome)
      (hc : s.callers.get? i = some (.joined g))
      (ho : mapGet s.completed g = some o) :
      SFStep s { s with callers := s.callers.set i (.got g o) }

/-- The initial single-flight state for one key and n pending callers: no
in-flight record, no invocations, no completions. -/
def SFInit (n : Nat) : SFState :=
  { inflight := none
    nextGen := 0
    invoked := []
    completed := []
    callers := List.replicate n .idle }

/-- States the dedup fetch layer can reach from the initial state. -/
def SFReachable (n : Nat) (s : SFState) : Prop :=
  Relation.ReflTransGen SFStep (SFInit n) s

/-- A sample server pool used to instantiate the theorems below: a /24
pool starting at 10.0.0.1 with three offsets, offset 0 assigned. -/
def sampleServer : DHCPServer :=
  { start := ⟨10, 0, 0, 1⟩
    subnet := ⟨255, 255, 255, 0⟩
    gateway := ⟨10, 0, 0, 254⟩
    leaseRange := 3
    leases := [((0 : Int), ⟨"aa"⟩)] }

lemma mapGet_mapSet_self {α β : Type} [DecidableEq α]
    (m : List (α × β)) (k : α) (v : β) :
    mapGet (mapSet m k v) k = some v := by
  induction m with
  | nil => simp [mapSet, mapGet]
  | cons p rest ih =>
    obtain ⟨k', v'⟩ := p
    by_cases hk : k' = k <;> simp [mapSet, mapGet, hk, ih]

lemma mapSet_of_mapGet_eq {α β : Type} [DecidableEq α]
    {m : List (α × β)} {k : α} {v : β}
    (h : mapGet m k = some v) : mapSet m k v = m := by
  induction m with
  | nil => simp [mapGet] at h
  | cons p rest ih =>
    obtain ⟨k', v'⟩ := p
    by_cases hk : k' = k
    · subst hk
      simp [mapGet] at h
      simp [mapSet, h]
    · simp [mapGet, hk] at h
      simp [mapSet, hk, ih h]

lemma mapSet_of_mapGet_none {α β : Type} [DecidableEq α]
    {m : List (α × β)} {k : α} (v : β)
    (h : mapGet m k = none) : mapSet m k v = m ++ [(k, v)] := by
  induction m with
  | nil => simp [mapSet]
  | cons p rest ih =>
    obtain ⟨k', v'⟩ := p
    by_cases hk : k' = k
    · simp [mapGet, hk] at h
    · simp [mapGet, hk] at h
      simp [mapSet, hk, ih h]

lemma mapGet_mem {α β : Type} [DecidableEq α]
    {m : List (α × β)} {k : α} {v : β}
    (h : mapGet m k = some v) : (k, v) ∈ m := by
  induction m with
  | nil => simp [mapGet] at h
  | cons p rest ih =>
    obtain ⟨k', v'⟩ := p
    by_cases hk : k' = k
    · subst hk
      simp [mapGet] at h
      simp [h]
    · simp [mapGet, hk] at h
      exact List.mem_cons_of_mem _ (ih h)

lemma mapGet_of_mem_of_nodup {α β : Type} [DecidableEq α] {l : List (α × β)}
    (h : (l.map Prod.fst).Nodup) {k : α} {v : β}
    (hm : (k, v) ∈ l) : mapGet l k = some v := by
  induction l with
  | nil => simp at hm
  | cons p rest ih =>
    obtain ⟨pk, pv⟩ := p
    simp only [List.map_cons, List.nodup_cons, List.mem_map] at h
    rcases List.mem_cons.mp hm with hm | hm
    · have h1 : pk = k := (congrArg Prod.fst hm).symm
      have h2 : pv = v := (congrArg Prod.snd hm).symm
      subst h1; subst h2
      simp [mapGet]
    · have hne : pk ≠ k := by
        intro he
        exact h.1 ⟨(k, v), hm, he.symm⟩
      simp only [mapGet, if_neg hne]
      exact ih h.2 hm

lemma mem_eq_of_nodup_keys {α β : Type} [DecidableEq α] {l : List (α × β)}
    (h : (l.map Prod.fst).Nodup) {k : α} {v v' : β}
    (h1 : (k, v) ∈ l) (h2 : (k, v') ∈ l) : v = v' := by
  have e1 := mapGet_of_mem_of_nodup h h1
  have e2 := mapGet_of_mem_of_nodup h h2
  rw [e1] at e2
  exact Option.some.inj e2

lemma releaseGo_of_no_match {m : List (Int × lease)} {c : String}
    (h : ∀ e ∈ m, e.2.nic ≠ c) : releaseGo m c = m := by
  induction m with
  | nil => rfl
  | cons p rest ih =>
    obtain ⟨k, v⟩ := p
    have hv : v.nic ≠ c := h (k, v) (List.mem_cons_self _ _)
    simp only [releaseGo, if_neg hv]
    rw [ih fun e he => h e (List.mem_cons_of_mem _ he)]

lemma releaseGo_append_single {m : List (Int × lease)} {c : String} (k : Int)
    (h : ∀ e ∈ m, e.2.nic ≠ c) :
    releaseGo (m ++ [(k, ⟨c⟩)]) c = m := by
  induction m with
  | nil => simp [releaseGo]
  | cons p rest ih =>
    obtain ⟨k', v⟩ := p
    have hv : v.nic ≠ c := h (k', v) (List.mem_cons_self _ _)
    simp only [List.cons_append, releaseGo, if_neg hv]
    exact congrArg (List.cons (k', v))
      (ih fun e he => h e (List.mem_cons_of_mem _ he))

lemma releaseGo_first_match (m : List (Int × lease)) (c : String) :
    releaseGo m c = m ∨
      ∃ l1 e l2, m = l1 ++ e :: l2 ∧ e.2.nic = c ∧
        (∀ x ∈ l1, x.2.nic ≠ c) ∧ releaseGo m c = l1 ++ l2 := by
  induction m with
  | nil => exact Or.inl rfl
  | cons p rest ih =>
    obtain ⟨k, v⟩ := p
    by_cases hv : v.nic = c
    · exact Or.inr ⟨[], (k, v), rest, by simp, hv, by simp,
        by simp [releaseGo, hv]⟩
    · rcases ih with h | ⟨l1, e, l2, hm, he, hl1, hrel⟩
      · left
        simp [releaseGo, hv, h]
      · right
        refine ⟨(k, v) :: l1, e, l2, by simp [hm], he, ?_, ?_⟩
        · intro x hx
          rcases List.mem_cons.mp hx with hx | hx
          · simpa [hx] using hv
          · exact hl1 x hx
        · simp [releaseGo, hv, hrel]

lemma ipValue_ofVal (v : Nat) (h : v < 2 ^ 32) :
    ipValue ⟨(v >>> 24) % 256, (v >>> 16) % 256, (v >>> 8) % 256, v % 256⟩
      = v := by
  unfold ipValue
  simp only [Nat.shiftLeft_eq, Nat.shiftRight_eq_div_pow]
  omega

lemma ipValue_IPAdd (a : IPv4) (n : Nat) (h : ipValue a + n < 2 ^ 32) :
    ipValue (IPAdd a n) = ipValue a + n := by
  have h64 : ipValue a + n < 2 ^ 64 := lt_trans h (by norm_num)
  show ipValue ⟨((ipValue a + n) % 2 ^ 64) >>> 24 % 256,
      ((ipValue a + n) % 2 ^ 64) >>> 16 % 256,
      ((ipValue a + n) % 2 ^ 64) >>> 8 % 256,
      (ipValue a + n) % 2 ^ 64 % 256⟩ = ipValue a + n
  rw [Nat.mod_eq_of_lt h64]
  exact ipValue_ofVal _ h

lemma IPRange_IPAdd (a : IPv4) (n : Nat) (h : ipValue a + n < 2 ^ 32) :
    IPRange a (IPAdd a n) - 1 = (n : Int) := by
  unfold IPRange
  rw [ipValue_IPAdd a n h]
  push_cast
  ring

lemma findFree_some {m : List (Int × lease)} {lo hi i : Nat}
    (h : findFree m lo hi = some i) :
    lo ≤ i ∧ i < hi ∧ mapGet m (i : Int) = none := by
  unfold findFree at h
  have hmem := List.mem_of_find?_eq_some h
  have hp := List.find?_some h
  rw [List.mem_range'_1] at hmem
  simp only [Option.isNone_iff_eq_none, decide_eq_true_eq] at hp
  exact ⟨hmem.1, by omega, hp⟩

lemma findFree_none {m : List (Int × lease)} {lo hi : Nat}
    (h : findFree m lo hi = none)
    {i : Nat} (h1 : lo ≤ i) (h2 : i < hi) :
    ∃ v, mapGet m (i : Int) = some v := by
  unfold findFree at h
  rw [List.find?_eq_none] at h
  have := h i (by rw [List.mem_range'_1]; omega)
  simp only [Option.isNone_iff_eq_none, decide_eq_true_eq] at this
  cases hv : mapGet m (i : Int) with
  | none => exact absurd hv this
  | some v => exact ⟨v, rfl⟩

lemma freeLease_spec (s : DHCPServer) (b : Nat) (hb : b < s.leaseRange) :
    freeLease s b = -1 ∨
      (0 ≤ freeLease s b ∧ freeLease s b < (s.leaseRange : Int) ∧
        mapGet s.leases (freeLease s b) = none) := by
  unfold freeLease
  rcases h1 : findFree s.leases b s.leaseRange with _ | i
  · rcases h2 : findFree s.leases 0 b with _ | i
    · exact Or.inl rfl
    · obtain ⟨_, hib, hnone⟩ := findFree_some h2
      show (i : Int) = -1 ∨
        (0 ≤ (i : Int) ∧ (i : Int) < (s.leaseRange : Int) ∧
          mapGet s.leases (i : Int) = none)
      refine Or.inr ⟨by positivity, ?_, hnone⟩
      exact_mod_cast lt_of_lt_of_le hib (le_of_lt hb)
  · obtain ⟨_, hi, hnone⟩ := findFree_some h1
    show (i : Int) = -1 ∨
      (0 ≤ (i : Int) ∧ (i : Int) < (s.leaseRange : Int) ∧
        mapGet s.leases (i : Int) = none)
    exact Or.inr ⟨by positivity, by exact_mod_cast hi, hnone⟩

lemma addLease_in_pool (s : DHCPServer) (c : String) (a : IPv4)
    (h0 : 0 ≤ IPRange s.start a - 1)
    (hlt : IPRange s.start a - 1 < (s.leaseRange : Int))
    (hnone : mapGet s.leases (IPRange s.start a - 1) = none) :
    addLease s c a =
      { s with leases := s.leases ++ [(IPRange s.start a - 1, ⟨c⟩)] } := by
  unfold addLease
  rw [if_pos ⟨h0, hlt⟩]
  simp only [hnone]
  rw [mapSet_of_mapGet_none _ hnone]

lemma freeLease_full (s : DHCPServer) (b : Nat) (hb : b < s.leaseRange)
    (hfull : ∀ i : Nat, i < s.leaseRange →
      ∃ v, mapGet s.leases (i : Int) = some v) :
    freeLease s b = -1 := by
  unfold freeLease
  rcases h1 : findFree s.leases b s.leaseRange with _ | i
  · rcases h2 : findFree s.leases 0 b with _ | i
    · rfl
    · obtain ⟨_, hib, hnone⟩ := findFree_some h2
      obtain ⟨v, hv⟩ := hfull i (by omega)
      rw [hv] at hnone
      exact absurd hnone (by simp)
  · obtain ⟨_, hi, hnone⟩ := findFree_some h1
    obtain ⟨v, hv⟩ := hfull i hi
    rw [hv] at hnone
    exact absurd hnone (by simp)


/-- C1: for every lease table state with leaseRange > 0 and every random
starting draw b in [0, leaseRange), freeLease returns either -1 or an
offset k with 0 ≤ k < leaseRange that is not a key of the lease map; and
when every offset in [0, leaseRange) is present in the map, freeLease
returns -1. -/
theorem C1_freeLease_sound (s : DHCPServer) (b : Nat)
    (hb : b < s.leaseRange) :
    (freeLease s b = -1 ∨
      (0 ≤ freeLease s b ∧ freeLease s b < (s.leaseRange : Int) ∧
        mapGet s.leases (freeLease s b) = none)) ∧
    ((∀ i : Nat, i < s.leaseRange →
        ∃ v, mapGet s.leases (i : Int) = some v) → freeLease s b = -1) :=
  ⟨freeLease_spec s b hb, fun hfull => freeLease_full s b hb hfull⟩

/-- Witness for C1 at the sample pool with random draw 1. -/
theorem C1_freeLease_sound_witness :
    1 < sampleServer.leaseRange ∧
    (freeLease sampleServer 1 = -1 ∨
      (0 ≤ freeLease sampleServer 1 ∧
        freeLease sampleServer 1 < (sampleServer.leaseRange : Int) ∧
        mapGet sampleServer.leases (freeLease sampleServer 1) = none)) :=
  ⟨by decide, (C1_freeLease_sound sampleServer 1 (by decide)).1⟩

/-- C2: the claim requires getCircuitID never to read out of the bounds of
the option bytes for any contents; the code violates this. With value
bytes [1, 1, 65] the declared length 1 passes the length check and the Go
slice bytes[2:1] panics; with the single byte [1] the read of byte 1
panics. An absent option does return an empty circuit id with no error,
and a well-formed value parses with no error. -/
theorem C2_getCircuitID_panics :
    getCircuitID (some [1, 1, 65]) = none ∧
    getCircuitID (some [1]) = none ∧
    getCircuitID none = some ([], false) ∧
    getCircuitID (some [1, 3, 65, 66]) = some ([65], false) := by
  decide

/-- C3: if the offset of address a is already bound to client c1, then
addLease with a different client c2 leaves the table unchanged, and
addLease with c1 again is idempotent: the server state is exactly the one
before the call, so the table does not grow and nothing fails. -/
theorem C3_addLease_no_overwrite (s : DHCPServer) (c1 c2 : String) (a : IPv4)
    (hne : c1 ≠ c2)
    (hbound : mapGet s.leases (IPRange s.start a - 1) = some ⟨c1⟩) :
    addLease s c2 a = s ∧ addLease s c1 a = s := by
  constructor
  · unfold addLease
    by_cases hcond : 0 ≤ IPRange s.start a - 1 ∧
        IPRange s.start a - 1 < (s.leaseRange : Int)
    · simp only [if_pos hcond, hbound]
      exact if_neg hne
    · exact if_neg hcond
  · unfold addLease
    by_cases hcond : 0 ≤ IPRange s.start a - 1 ∧
        IPRange s.start a - 1 < (s.leaseRange : Int)
    · simp only [if_pos hcond, hbound, if_pos rfl, mapSet_of_mapGet_eq hbound,
        if_true]
    · exact if_neg hcond

/-- Witness for C3 at the sample pool: offset 0 is bound to aa; a bind by
bb leaves the table unchanged. -/
theorem C3_addLease_no_overwrite_witness :
    ("aa" : String) ≠ "bb" ∧
    mapGet sampleServer.leases
      (IPRange sampleServer.start ⟨10, 0, 0, 1⟩ - 1) = some ⟨"aa"⟩ ∧
    addLease sampleServer "bb" ⟨10, 0, 0, 1⟩ = sampleServer :=
  ⟨by decide, by decide,
    (C3_addLease_no_overwrite sampleServer "aa" "bb" ⟨10, 0, 0, 1⟩
      (by decide) (by decide)).1⟩

/-- C4: for every base address a and every offset n whose sum with the
value of a fits in 32 bits, IPRange a (IPAdd a n) - 1 = n. -/
theorem C4_rangeCount_addOffset (a : IPv4) (n : Nat)
    (h : ipValue a + n < 2 ^ 32) :
    IPRange a (IPAdd a n) - 1 = (n : Int) :=
  IPRange_IPAdd a n h

/-- Witness for C4 at 192.168.1.1 with offset 30. -/
theorem C4_rangeCount_addOffset_witness :
    ipValue ⟨192, 168, 1, 1⟩ + 30 < 2 ^ 32 ∧
    IPRange ⟨192, 168, 1, 1⟩ (IPAdd ⟨192, 168, 1, 1⟩ 30) - 1 = (30 : Int) :=
  ⟨by decide, C4_rangeCount_addOffset ⟨192, 168, 1, 1⟩ 30 (by decide)⟩

/-- C6: releaseLease removes at most one entry, one whose stored client
matches, leaving every other entry unchanged; it is a no-op when no entry
matches; and after addLease for a fresh in-pool offset on a table with no
entry for that client, releaseLease restores exactly the original state. -/
theorem C6_releaseLease_removes_one (s : DHCPServer) (c : String) :
    ((∀ e ∈ s.leases, e.2.nic ≠ c) → releaseLease s c = s) ∧
    (releaseLease s c = s ∨
      ∃ l1 e l2, s.leases = l1 ++ e :: l2 ∧ e.2.nic = c ∧
        (∀ x ∈ l1, x.2.nic ≠ c) ∧ (releaseLease s c).leases = l1 ++ l2) ∧
    (∀ a : IPv4, (∀ e ∈ s.leases, e.2.nic ≠ c) →
      0 ≤ IPRange s.start a - 1 →
      IPRange s.start a - 1 < (s.leaseRange : Int) →
      mapGet s.leases (IPRange s.start a - 1) = none →
      releaseLease (addLease s c a) c = s) := by
  refine ⟨?_, ?_, ?_⟩
  · intro h
    unfold releaseLease
    rw [releaseGo_of_no_match h]
  · rcases releaseGo_first_match s.leases c with h | ⟨l1, e, l2, hm, he, hl1, hr⟩
    · left
      unfold releaseLease
      rw [h]
    · right
      exact ⟨l1, e, l2, hm, he, hl1, hr⟩
  · intro a hfree h0 hlt hnone
    rw [addLease_in_pool s c a h0 hlt hnone]
    unfold releaseLease
    dsimp only
    rw [releaseGo_append_single _ hfree]

/-- Witness for C6 at the sample pool: client cc holds no lease, a bind at
offset 1 followed by a release restores the original state. -/
theorem C6_releaseLease_removes_one_witness :
    (∀ e ∈ sampleServer.leases, e.2.nic ≠ "cc") ∧
    releaseLease (addLease sampleServer "cc" ⟨10, 0, 0, 2⟩) "cc" =
      sampleServer :=
  ⟨by decide,
    (C6_releaseLease_removes_one sampleServer "cc").2.2 ⟨10, 0, 0, 2⟩
      (by decide) (by decide) (by decide) (by decide)⟩

/-- C8: for every address whose computed offset is negative or at least
leaseRange, addLease changes nothing. -/
theorem C8_addLease_out_of_pool (s : DHCPServer) (mac : String) (a : IPv4)
    (h : IPRange s.start a - 1 < 0 ∨
      (s.leaseRange : Int) ≤ IPRange s.start a - 1) :
    addLease s mac a = s := by
  unfold addLease
  rw [if_neg (by omega)]

/-- Witness for C8 at the sample pool with an address 199 offsets past the
three-offset pool. -/
theorem C8_addLease_out_of_pool_witness :
    ((sampleServer.leaseRange : Int) ≤
      IPRange sampleServer.start ⟨10, 0, 0, 200⟩ - 1) ∧
    addLease sampleServer "aa" ⟨10, 0, 0, 200⟩ = sampleServer :=
  ⟨by decide,
    C8_addLease_out_of_pool sampleServer "aa" ⟨10, 0, 0, 200⟩
      (Or.inr (by decide))⟩

/-- C10: when freeLease returns an offset k other than -1, binding client
c at address start + k always records the lease: the computed offset
equals k, k passes the bounds check, k is free, and after the call the
table maps k to c. -/
theorem C10_alloc_then_bind (s : DHCPServer) (c : String) (b : Nat)
    (hb : b < s.leaseRange) (hfree : freeLease s b ≠ -1)
    (hfit : ipValue s.start + (freeLease s b).toNat < 2 ^ 32) :
    IPRange s.start (IPAdd s.start (freeLease s b).toNat) - 1
        = freeLease s b ∧
    0 ≤ freeLease s b ∧ freeLease s b < (s.leaseRange : Int) ∧
    mapGet s.leases (freeLease s b) = none ∧
    mapGet (addLease s c (IPAdd s.start (freeLease s b).toNat)).leases
      (freeLease s b) = some ⟨c⟩ := by
  obtain h | ⟨h0, hlt, hnone⟩ := freeLease_spec s b hb
  · exact absurd h hfree
  have htn : ((freeLease s b).toNat : Int) = freeLease s b :=
    Int.toNat_of_nonneg h0
  have hoff : IPRange s.start (IPAdd s.start (freeLease s b).toNat) - 1
      = freeLease s b := by
    rw [IPRange_IPAdd _ _ hfit, htn]
  refine ⟨hoff, h0, hlt, hnone, ?_⟩
  unfold addLease
  rw [hoff, if_pos ⟨h0, hlt⟩]
  simp only [hnone]
  exact mapGet_mapSet_self _ _ _

/-- Witness for C10 at the sample pool with random draw 1: freeLease
returns offset 1 and the bind at 10.0.0.2 records it for client cc. -/
theorem C10_alloc_then_bind_witness :
    (1 < sampleServer.leaseRange ∧ freeLease sampleServer 1 ≠ -1 ∧
      ipValue sampleServer.start + (freeLease sampleServer 1).toNat
        < 2 ^ 32) ∧
    mapGet (addLease sampleServer "cc"
        (IPAdd sampleServer.start (freeLease sampleServer 1).toNat)).leases
      (freeLease sampleServer 1) = some ⟨"cc"⟩ :=
  ⟨⟨by decide, by decide, by decide⟩,
    (C10_alloc_then_bind sampleServer "cc" 1 (by decide) (by decide)
      (by decide)).2.2.2.2⟩

/-- C5: for an unknown client (discovery fails) with auto-provisioning
enabled and a free offset available, serveDHCP performs exactly one
hardware creation, one lease bind, one template lookup and one workflow
creation, in that order; and a failure of creation, template lookup or
workflow creation stops the handling with none of the later calls made. -/
theorem C5_auto_provision_flow (s : DHCPServer) (mac : String) (b : Nat)
    (hfree : freeLease s b ≠ -1) :
    ((serveDHCP s mac false false false false true b true true true).1 =
        [.discover, .createHW, .bindLease, .getTemplate, .createWorkflow,
          .respond] ∧
      (serveDHCP s mac false false false false true b true true true).1.count
          .createHW = 1 ∧
      (serveDHCP s mac false false false false true b true true true).1.count
          .bindLease = 1 ∧
      (serveDHCP s mac false false false false true b true true true).1.count
          .getTemplate = 1 ∧
      (serveDHCP s mac false false false false true b true true true).1.count
          .createWorkflow = 1 ∧
      List.Sublist
        [Event.createHW, Event.bindLease, Event.getTemplate,
          Event.createWorkflow]
        (serveDHCP s mac false false false false true b true true true).1) ∧
    (∀ tOk wOk : Bool,
      (serveDHCP s mac false false false false true b false tOk wOk).1 =
        [.discover, .createHW]) ∧
    (∀ wOk : Bool,
      (serveDHCP s mac false false false false true b true false wOk).1 =
        [.discover, .createHW, .bindLease, .getTemplate]) ∧
    (serveDHCP s mac false false false false true b true true false).1 =
      [.discover, .createHW, .bindLease, .getTemplate, .createWorkflow] := by
  have hsucc :
      (serveDHCP s mac false false false false true b true true true).1 =
      [.discover, .createHW, .bindLease, .getTemplate, .createWorkflow,
        .respond] := by
    simp [serveDHCP, hfree]
  refine ⟨⟨hsucc, ?_, ?_, ?_, ?_, ?_⟩, ?_, ?_, ?_⟩
  · rw [hsucc]; decide
  · rw [hsucc]; decide
  · rw [hsucc]; decide
  · rw [hsucc]; decide
  · rw [hsucc]; decide
  · intro tOk wOk
    simp [serveDHCP, hfree]
  · intro wOk
    simp [serveDHCP, hfree]
  · simp [serveDHCP, hfree]

/-- Witness for C5 at the sample pool: with draw 1 a free offset exists
and the auto-provisioning path performs exactly one creation call. -/
theorem C5_auto_provision_flow_witness :
    freeLease sampleServer 1 ≠ -1 ∧
    (serveDHCP sampleServer "mm" false false false false true 1 true true
        true).1.count .createHW = 1 :=
  ⟨by decide,
    (C5_auto_provision_flow sampleServer "mm" 1 (by decide)).1.2.1⟩

lemma retryFrom_none_of_all_false {op : Nat → Bool} (h : ∀ i, op i = false) :
    ∀ fuel i, retryFrom op i fuel = none := by
  intro fuel
  induction fuel with
  | zero => intro i; rfl
  | succ n ih =>
    intro i
    simp only [retryFrom, h i, Bool.false_eq_true, if_false]
    exact ih (i + 1)

lemma retryAttemptsFrom_all_false {op : Nat → Bool} (h : ∀ i, op i = false) :
    ∀ fuel i, retryAttemptsFrom op i fuel = fuel := by
  intro fuel
  induction fuel with
  | zero => intro i; rfl
  | succ n ih =>
    intro i
    simp only [retryAttemptsFrom, h i, Bool.false_eq_true, if_false]
    rw [ih (i + 1)]
    omega

/-- C9: an operation failing on attempts 0 and 1 and succeeding on attempt
2 makes the supervisor succeed on the third attempt without escalating to
fatal, for any budget of at least three attempts; an operation that always
fails makes the supervisor perform exactly the budgeted number of attempts
and then escalate to fatal. -/
theorem C9_startup_retry (budget : Nat) (hbudget : 3 ≤ budget) :
    (∀ op : Nat → Bool, op 0 = false → op 1 = false → op 2 = true →
      retryDo op budget = some 2 ∧ serveDHCPFatal op budget = false) ∧
    (∀ op : Nat → Bool, (∀ i, op i = false) →
      serveDHCPFatal op budget = true ∧ retryAttempts op budget = budget) := by
  obtain ⟨n, rfl⟩ : ∃ n, budget = n + 1 + 1 + 1 := ⟨budget - 3, by omega⟩
  constructor
  · intro op h0 h1 h2
    have hsome : retryDo op (n + 1 + 1 + 1) = some 2 := by
      simp [retryDo, retryFrom, h0, h1, h2]
    exact ⟨hsome, by simp [serveDHCPFatal, hsome]⟩
  · intro op hall
    have hnone : retryDo op (n + 1 + 1 + 1) = none :=
      retryFrom_none_of_all_false hall _ 0
    exact ⟨by simp [serveDHCPFatal, hnone],
      retryAttemptsFrom_all_false hall _ 0⟩

/-- Witness for C9 with the retry-go default budget of ten attempts: the
fail-twice-then-succeed operation succeeds on attempt index 2, and the
always-failing operation escalates to fatal. -/
theorem C9_startup_retry_witness :
    (retryDo (fun i => decide (2 ≤ i)) 10 = some 2 ∧
      serveDHCPFatal (fun i => decide (2 ≤ i)) 10 = false) ∧
    serveDHCPFatal (fun _ => false) 10 = true :=
  ⟨(C9_startup_retry 10 (by decide)).1 (fun i => decide (2 ≤ i)) rfl rfl rfl,
    ((C9_startup_retry 10 (by decide)).2 (fun _ => false) (fun _ => rfl)).1⟩

lemma get?_replicate_cases {α : Type} {n i : Nat} {a b : α}
    (h : (List.replicate n a).get? i = some b) : b = a := by
  rw [List.get?_eq_getElem?, List.getElem?_replicate] at h
  split at h
  · exact (Option.some.inj h).symm
  · simp at h

/-- The inductive invariant of the single-flight model: the invocation log
is exactly the generations below the counter, completed generations are
distinct and below the counter, the in-flight generation is below the
counter and not yet completed, every caller generation is below the
counter, and a returned caller carries an outcome recorded for its
generation. -/
def SFInv (s : SFState) : Prop :=
  s.invoked = List.range s.nextGen ∧
  (s.completed.map Prod.fst).Nodup ∧
  (∀ p ∈ s.completed, p.1 < s.nextGen) ∧
  (∀ g, s.inflight = some g →
    g < s.nextGen ∧ g ∉ s.completed.map Prod.fst) ∧
  (∀ i st, s.callers.get? i = some st →
    ∀ g, st.genOf = some g → g < s.nextGen) ∧
  (∀ i g o, s.callers.get? i = some (.got g o) → (g, o) ∈ s.completed)

lemma SFInv_init (n : Nat) : SFInv (SFInit n) := by
  refine ⟨rfl, List.nodup_nil, by simp [SFInit], by simp [SFInit], ?_, ?_⟩
  · intro i st hst g hg
    have hid : st = .idle := get?_replicate_cases hst
    rw [hid] at hg
    simp [CallerState.genOf] at hg
  · intro i g o hst
    have hid : CallerState.got g o = .idle := get?_replicate_cases hst
    simp at hid


lemma get?_set_cases {α : Type} {l : List α} {i j : Nat} {a b : α}
    (h : (l.set i a).get? j = some b) : b = a ∨ l.get? j = some b := by
  by_cases hij : i = j
  · subst hij
    rw [List.get?_set_eq] at h
    cases hl : l.get? i with
    | none =>
      rw [hl] at h
      simp at h
    | some c =>
      rw [hl] at h
      have hab : some a = some b := h
      exact Or.inl (Option.some.inj hab).symm
  · rw [List.get?_set_ne _ _ hij] at h
    exact Or.inr h

lemma SFInv_step {s t : SFState} (hs : SFStep s t) (h : SFInv s) :
    SFInv t := by
  obtain ⟨h1, h2, h3, h4, h5, h6⟩ := h
  cases hs with
  | start i hc hin =>
    refine ⟨?_, h2, ?_, ?_, ?_, ?_⟩
    · simp only [h1]
      exact (List.range_succ ..).symm
    · intro p hp
      exact lt_trans (h3 p hp) (Nat.lt_succ_self _)
    · intro g hg
      have hg' : g = s.nextGen := (Option.some.inj hg).symm
      subst hg'
      refine ⟨Nat.lt_succ_self _, fun hmem => ?_⟩
      obtain ⟨p, hp, hp1⟩ := List.mem_map.mp hmem
      exact absurd (h3 p hp) (by omega)
    · intro j st hst g hg
      rcases get?_set_cases hst with rfl | hst
      · simp only [CallerState.genOf, Option.some.injEq] at hg
        show g < s.nextGen + 1
        omega
      · exact lt_trans (h5 j st hst g hg) (Nat.lt_succ_self _)
    · intro j g o hst
      rcases get?_set_cases hst with he | hst
      · simp at he
      · exact h6 j g o hst
  | join i g hc hin =>
    refine ⟨h1, h2, h3, h4, ?_, ?_⟩
    · intro j st hst g' hg'
      rcases get?_set_cases hst with rfl | hst
      · simp only [CallerState.genOf, Option.some.injEq] at hg'
        exact hg' ▸ (h4 g hin).1
      · exact h5 j st hst g' hg'
    · intro j g' o hst
      rcases get?_set_cases hst with he | hst
      · simp at he
      · exact h6 j g' o hst
  | complete g o hin =>
    refine ⟨h1, ?_, ?_, ?_, h5, ?_⟩
    · simp only [List.map_append, List.map_cons, List.map_nil]
      rw [List.nodup_append]
      refine ⟨h2, List.nodup_singleton _, fun a ha hb => ?_⟩
      rw [List.mem_singleton] at hb
      exact (h4 g hin).2 (hb ▸ ha)
    · intro p hp
      rcases List.mem_append.mp hp with hp | hp
      · exact h3 p hp
      · rw [List.mem_singleton] at hp
        subst hp
        exact (h4 g hin).1
    · intro g' hg'
      simp at hg'
    · intro j g' o' hst
      exact List.mem_append_left _ (h6 j g' o' hst)
  | receive i g o hc ho =>
    refine ⟨h1, h2, h3, h4, ?_, ?_⟩
    · intro j st hst g' hg'
      rcases get?_set_cases hst with rfl | hst
      · simp only [CallerState.genOf, Option.some.injEq] at hg'
        exact hg' ▸ h5 i (.joined g) hc g rfl
      · exact h5 j st hst g' hg'
    · intro j g' o' hst
      rcases get?_set_cases hst with he | hst
      · injection he with e1 e2
        subst e1
        subst e2
        exact mapGet_mem ho
      · exact h6 j g' o' hst

lemma SFInv_reachable {n : Nat} {s : SFState} (h : SFReachable n s) :
    SFInv s := by
  induction h with
  | refl => exact SFInv_init n
  | tail _ hstep ih => exact SFInv_step hstep ih

/-- C7: in every reachable state of the single-flight model, each
generation some caller joined has exactly one underlying invocation in the
log, any two callers that returned with the same generation observed the
same outcome, and the invocation log never repeats a generation — after a
completion clears the in-flight record, a later call starts a fresh
invocation under a new generation. -/
theorem C7_singleflight (n : Nat) (s : SFState) (h : SFReachable n s) :
    (∀ g, (∃ i st, s.callers.get? i = some st ∧ st.genOf = some g) →
      s.invoked.count g = 1) ∧
    (∀ i j g o o', s.callers.get? i = some (.got g o) →
      s.callers.get? j = some (.got g o') → o = o') ∧
    s.invoked.Nodup := by
  obtain ⟨h1, h2, h3, h4, h5, h6⟩ := SFInv_reachable h
  refine ⟨?_, ?_, ?_⟩
  · rintro g ⟨i, st, hst, hg⟩
    have hlt := h5 i st hst g hg
    rw [h1]
    exact List.count_eq_one_of_mem (List.nodup_range _)
      (List.mem_range.mpr hlt)
  · intro i j g o o' hi hj
    exact mem_eq_of_nodup_keys h2 (h6 i g o hi) (h6 j g o' hj)
  · rw [h1]
    exact List.nodup_range _

/-- Intermediate single-flight state of a concrete two-caller run:
caller 0 starts generation 0. -/
def sfA : SFState :=
  { inflight := some 0, nextGen := 1, invoked := [0], completed := [],
    callers := [.joined 0, .idle] }

/-- Caller 1 joins generation 0 while it is in flight. -/
def sfB : SFState :=
  { sfA with callers := [.joined 0, .joined 0] }

/-- The underlying operation completes with value 7 and the in-flight
record is cleared. -/
def sfC : SFState :=
  { sfB with inflight := none, completed := [(0, Outcome.ok 7)] }

/-- Caller 0 receives the shared outcome. -/
def sfSample : SFState :=
  { sfC with callers := [.got 0 (.ok 7), .joined 0] }

lemma sfSample_reachable : SFReachable 2 sfSample := by
  have st1 : SFStep (SFInit 2) sfA := SFStep.start (SFInit 2) 0 rfl rfl
  have st2 : SFStep sfA sfB := SFStep.join sfA 1 0 rfl rfl
  have st3 : SFStep sfB sfC := SFStep.complete sfB 0 (.ok 7) rfl
  have st4 : SFStep sfC sfSample := SFStep.receive sfC 0 0 (.ok 7) rfl rfl
  exact Relation.ReflTransGen.tail (Relation.ReflTransGen.tail
    (Relation.ReflTransGen.tail (Relation.ReflTransGen.single st1) st2) st3)
    st4

/-- Witness for C7 on a concrete two-caller interleaving: generation 0 was
invoked exactly once. -/
theorem C7_singleflight_witness :
    SFReachable 2 sfSample ∧ sfSample.invoked.count 0 = 1 :=
  ⟨sfSample_reachable,
    (C7_singleflight 2 sfSample sfSample_reachable).1 0
      ⟨0, .got 0 (.ok 7), rfl, rfl⟩⟩
